import Mathlib

/-!
Shallow embedding of the in-memory hero store
(`src/app/infrastructure/services/hero.service.ts` and
`src/app/domain/models/hero.model.ts`).

The service keeps an ordered list of heroes in a signal; every operation
computes synchronously against the current list and the RxJS `delay` only
defers delivery of the already-computed value, so each method is modelled
as a pure function from the current collection (`List Hero`) to its result
and, for mutations, the new collection.  JS `Date` values are modelled as
`Int` millisecond timestamps, `undefined`-able fields as `Option`,
`throwError` as `Except.error`, and the nondeterministic inputs of
`generateId` (`Date.now()`, `Math.random().toString(36).slice(2, 11)`) as
explicit parameters.
-/

namespace HeroStore

/-- Interface `Hero` from `hero.model.ts`: `id`, `name`, optional
`description`, `createdAt`. -/
structure Hero where
  id : String
  name : String
  description : Option String
  createdAt : Int
deriving DecidableEq

/-- Interface `CreateHeroDto` from `hero.model.ts`: required `name`, optional
`description`. -/
structure CreateHeroDto where
  name : String
  description : Option String
deriving DecidableEq

/-- Interface `UpdateHeroDto` from `hero.model.ts`: both fields optional. -/
structure UpdateHeroDto where
  name : Option String
  description : Option String
deriving DecidableEq

/-- The seed collection the `heroesSignal` is initialised with
(`hero.service.ts`, constructor of the signal). -/
def initialHeroes : List Hero :=
  [ { id := "1", name := "Superman", description := some "Man of Steel",
      createdAt := 1704067200000 },
    { id := "2", name := "Spiderman",
      description := some "Your friendly neighborhood Spider-Man",
      createdAt := 1704153600000 },
    { id := "3", name := "Batman", description := some "The Dark Knight",
      createdAt := 1704240000000 } ]

/-- Model of JS `String.prototype.toLowerCase`: lower-case every
character. -/
def strToLower (s : String) : String :=
  ⟨s.data.map Char.toLower⟩

/-- Model of JS `String.prototype.trim`: drop whitespace from both ends. -/
def strTrim (s : String) : String :=
  ⟨((s.data.dropWhile Char.isWhitespace).reverse.dropWhile
      Char.isWhitespace).reverse⟩

/-- Helper for `subCheck`: JS-style "does `needle` start `hay`?". -/
def prefCheck : List Char → List Char → Bool
  | [], _ => true
  | _ :: _, [] => false
  | a :: as, b :: bs => a == b && prefCheck as bs

/-- Substring search on character lists. -/
def subCheck (needle : List Char) : List Char → Bool
  | [] => needle.isEmpty
  | c :: rest => prefCheck needle (c :: rest) || subCheck needle rest

/-- Model of JS `hay.includes(needle)`: substring containment. -/
def strIncludes (hay needle : String) : Bool :=
  subCheck needle.data hay.data

/-- Method `getAll()`: emits the current collection unchanged. -/
def getAll (heroes : List Hero) : List Hero := heroes

/-- Method `getById(id)`: `heroes.find(h => h.id === id)`; `undefined` is `none`. -/
def getById (heroes : List Hero) (id : String) : Option Hero :=
  heroes.find? (fun h => h.id == id)

/-- Method `searchByName(term)`: lower-case then trim the term; an empty
normalized term falls back to `getAll`, otherwise filter by substring
match on the lower-cased name. -/
def searchByName (heroes : List Hero) (term : String) : List Hero :=
  let normalizedTerm := strTrim (strToLower term)
  if normalizedTerm = "" then getAll heroes
  else heroes.filter (fun hero =>
    strIncludes (strToLower hero.name) normalizedTerm)

/-- Method `generateId()`: `` `${Date.now()}-${Math.random().toString(36).slice(2, 11)}` ``,
with the two nondeterministic reads passed in as parameters. -/
def generateId (now : Int) (randSuffix : String) : String :=
  toString now ++ "-" ++ randSuffix

/-- Method `create(dto)`: builds the new hero from the dto plus a generated id and
the current time, appends it to the collection, and returns it.  It contains
no failure path. -/
def create (heroes : List Hero) (dto : CreateHeroDto) (now : Int)
    (randSuffix : String) : Hero × List Hero :=
  let newHero : Hero :=
    { id := generateId now randSuffix, name := dto.name,
      description := dto.description, createdAt := now }
  (newHero, heroes ++ [newHero])

/-- JS `Array.prototype.findIndex`, with the absent case (`-1`) modelled
as `none`. -/
def findIndexO (p : Hero → Bool) : List Hero → Option Nat
  | [] => none
  | h :: t => if p h then some 0 else (findIndexO p t).map (· + 1)

/-- The object spread `{ ...hero, ...dto }` of `update`: fields present in
the dto overwrite, absent fields are preserved (`id` and `createdAt` do not
occur in `UpdateHeroDto`, so they are always preserved). -/
def applyPatch (h : Hero) (dto : UpdateHeroDto) : Hero :=
  { h with name := dto.name.getD h.name,
           description := dto.description.orElse (fun _ => h.description) }

/-- Method `update(id, dto)`: `findIndex`, error when the index is `-1`, otherwise
merge the dto into the record and splice it back at the same position
(`slice(0, index) ++ [updated] ++ slice(index + 1)`).  The inner `none`
branch models the (unreachable) out-of-bounds array access. -/
def update (heroes : List Hero) (id : String) (dto : UpdateHeroDto) :
    Except String (Hero × List Hero) :=
  match findIndexO (fun h => h.id == id) heroes with
  | none => .error ("Hero with id " ++ id ++ " not found")
  | some index =>
    match heroes[index]? with
    | none => .error ("Hero with id " ++ id ++ " not found")
    | some h =>
      let updatedHero := applyPatch h dto
      .ok (updatedHero,
           heroes.take index ++ [updatedHero] ++ heroes.drop (index + 1))

/-- Method `delete(id)`: error when no hero has the id, otherwise keep exactly the
heroes whose id differs (`heroes.filter(h => h.id !== id)`). -/
def delete (heroes : List Hero) (id : String) : Except String (List Hero) :=
  let heroExists := heroes.any (fun h => h.id == id)
  if !heroExists then .error ("Hero with id " ++ id ++ " not found")
  else .ok (heroes.filter (fun h => !(h.id == id)))

/-- Method `resetToInitialState()`: overwrites the collection with the literal
seed written out again in the method body. -/
def resetToInitialState (_heroes : List Hero) : List Hero :=
  [ { id := "1", name := "Superman", description := some "Man of Steel",
      createdAt := 1704067200000 },
    { id := "2", name := "Spiderman",
      description := some "Your friendly neighborhood Spider-Man",
      createdAt := 1704153600000 },
    { id := "3", name := "Batman", description := some "The Dark Knight",
      createdAt := 1704240000000 } ]

/-- One entry point of the service's public API, with the nondeterministic
inputs of `create` made explicit. -/
inductive ApiCall where
  | getAll
  | getById (id : String)
  | searchByName (term : String)
  | create (dto : CreateHeroDto) (now : Int) (randSuffix : String)
  | update (id : String) (dto : UpdateHeroDto)
  | delete (id : String)
  | reset
deriving DecidableEq

/-- Result value delivered through the observable (or its error channel). -/
inductive CallResult where
  | heroes (hs : List Hero)
  | heroOpt (h : Option Hero)
  | hero (h : Hero)
  | unit
  | err (msg : String)
deriving DecidableEq

/-- Which entry points write to `heroesSignal`. -/
def isMutation : ApiCall → Bool
  | .create _ _ _ => true
  | .update _ _ => true
  | .delete _ => true
  | .reset => true
  | _ => false

/-- Dispatch one call against the current collection: the delivered result
together with the collection after the call.  Query methods never touch the
signal; a failed `update`/`delete` surfaces the error and leaves the
collection as it was. -/
def applyCall (s : List Hero) : ApiCall → CallResult × List Hero
  | .getAll => (.heroes (getAll s), s)
  | .getById id => (.heroOpt (getById s id), s)
  | .searchByName term => (.heroes (searchByName s term), s)
  | .create dto now randSuffix =>
      let r := create s dto now randSuffix
      (.hero r.1, r.2)
  | .update id dto =>
      match update s id dto with
      | .ok r => (.hero r.1, r.2)
      | .error e => (.err e, s)
  | .delete id =>
      match delete s id with
      | .ok s' => (.unit, s')
      | .error e => (.err e, s)
  | .reset => (.unit, resetToInitialState s)

/-- State transition of one call. -/
def applyOp (s : List Hero) (c : ApiCall) : List Hero :=
  (applyCall s c).2

/-- Collection reached after a sequence of calls, starting from the seed
the service is constructed with. -/
def run (calls : List ApiCall) : List Hero :=
  calls.foldl applyOp initialHeroes

/-- Side condition on a run: every id handed to `create` by the
environment (`Date.now()` / `Math.random()`) is fresh for the collection
at that moment.  The service itself performs no such collision check. -/
def FreshIds : List Hero → List ApiCall → Bool
  | _, [] => true
  | s, c :: cs =>
    (match c with
     | .create _ now randSuffix =>
        !((s.map Hero.id).contains (generateId now randSuffix))
     | _ => true) && FreshIds (applyOp s c) cs

/-- Side condition on a run: every name handed to `create` or `update` is
non-empty.  The TS types admit `""` and the service validates nothing. -/
def NamesOk : List ApiCall → Bool
  | [] => true
  | c :: cs =>
    (match c with
     | .create dto _ _ => !(dto.name == "")
     | .update _ dto =>
        match dto.name with
        | some n => !(n == "")
        | none => true
     | _ => true) && NamesOk cs

/-! ## Helper lemmas -/

/-- A list has no index matching `p` exactly when no element satisfies `p`. -/
theorem findIndexO_eq_none_iff (p : Hero → Bool) (l : List Hero) :
    findIndexO p l = none ↔ l.any p = false := by
  induction l with
  | nil => simp [findIndexO]
  | cons a t ih =>
    by_cases hpa : p a = true
    · simp [findIndexO, hpa]
    · simp only [Bool.not_eq_true] at hpa
      simp [findIndexO, hpa, ih]

/-- A found index is in bounds and points at an element satisfying `p`. -/
theorem findIndexO_eq_some (p : Hero → Bool) (l : List Hero) (i : Nat)
    (hf : findIndexO p l = some i) :
    i < l.length ∧ ∃ x, l[i]? = some x ∧ p x = true := by
  induction l generalizing i with
  | nil => simp [findIndexO] at hf
  | cons a t ih =>
    by_cases hpa : p a = true
    · simp [findIndexO, hpa] at hf
      subst hf
      exact ⟨Nat.succ_pos _, a, by simp, hpa⟩
    · simp only [Bool.not_eq_true] at hpa
      simp [findIndexO, hpa] at hf
      obtain ⟨j, hj, rfl⟩ := hf
      obtain ⟨hlt, x, hx, hpx⟩ := ih j hj
      exact ⟨Nat.succ_lt_succ hlt, x, by simpa using hx, hpx⟩

/-- Characterisation of `prefCheck`. -/
theorem prefCheck_iff (a b : List Char) :
    prefCheck a b = true ↔ ∃ t, a ++ t = b := by
  induction a generalizing b with
  | nil => simp [prefCheck]
  | cons x xs ih =>
    cases b with
    | nil => simp [prefCheck]
    | cons y ys =>
      simp only [prefCheck, Bool.and_eq_true, beq_iff_eq, ih,
        List.cons_append, List.cons.injEq]
      constructor
      · rintro ⟨rfl, t, rfl⟩
        exact ⟨t, rfl, rfl⟩
      · rintro ⟨t, rfl, rfl⟩
        exact ⟨rfl, t, rfl⟩

/-- Characterisation of `subCheck`: substring containment. -/
theorem subCheck_iff (needle hay : List Char) :
    subCheck needle hay = true ↔ ∃ pre post, pre ++ needle ++ post = hay := by
  induction hay with
  | nil =>
    simp only [subCheck, List.isEmpty_iff]
    constructor
    · rintro rfl
      exact ⟨[], [], rfl⟩
    · rintro ⟨pre, post, h⟩
      rcases List.append_eq_nil.mp h with ⟨h1, h2⟩
      exact (List.append_eq_nil.mp h1).2
  | cons c rest ih =>
    simp only [subCheck, Bool.or_eq_true, prefCheck_iff, ih]
    constructor
    · rintro (⟨t, ht⟩ | ⟨pre, post, rfl⟩)
      · exact ⟨[], t, by simpa using ht⟩
      · exact ⟨c :: pre, post, rfl⟩
    · rintro ⟨pre, post, hsplit⟩
      cases pre with
      | nil =>
        left
        exact ⟨post, by simpa using hsplit⟩
      | cons p ps =>
        right
        simp only [List.cons_append, List.cons.injEq] at hsplit
        exact ⟨ps, post, hsplit.2⟩

/-- Splitting a count over a predicate and its negation. -/
theorem countP_not_add (p : Hero → Bool) (l : List Hero) :
    List.countP (fun h => !(p h)) l + List.countP p l = l.length := by
  induction l with
  | nil => simp
  | cons a t ih =>
    by_cases hpa : p a = true
    · simp [List.countP_cons, hpa]
      omega
    · simp only [Bool.not_eq_true] at hpa
      simp [List.countP_cons, hpa]
      omega

/-- With duplicate-free ids, a present id is matched by exactly one
record. -/
theorem countP_id_eq_one (l : List Hero) (id : String)
    (hnd : (l.map Hero.id).Nodup)
    (hmem : l.any (fun h => h.id == id) = true) :
    List.countP (fun h => h.id == id) l = 1 := by
  induction l with
  | nil => simp at hmem
  | cons a t ih =>
    rw [List.map_cons, List.nodup_cons] at hnd
    obtain ⟨ha, hnd'⟩ := hnd
    by_cases hid : a.id = id
    · have hzero : List.countP (fun h => h.id == id) t = 0 := by
        rw [List.countP_eq_zero]
        intro x hx
        simp only [beq_iff_eq]
        intro hxid
        exact ha (List.mem_map.mpr ⟨x, hx, by rw [hxid, hid]⟩)
      simp [List.countP_cons, hid, hzero]
    · have hmem' : t.any (fun h => h.id == id) = true := by
        rcases List.any_eq_true.mp hmem with ⟨x, hx, hpx⟩
        rcases List.mem_cons.mp hx with rfl | hxt
        · exact absurd (beq_iff_eq.mp hpx) hid
        · exact List.any_eq_true.mpr ⟨x, hxt, hpx⟩
      simp [List.countP_cons, hid, ih hnd' hmem']

/-- With duplicate-free ids, searching for a member's id finds exactly that
member. -/
theorem find?_id_eq_of_nodup (s : List Hero) (x : Hero)
    (hnd : (s.map Hero.id).Nodup) (hx : x ∈ s) :
    s.find? (fun h => h.id == x.id) = some x := by
  induction s with
  | nil => simp at hx
  | cons a t ih =>
    rw [List.map_cons, List.nodup_cons] at hnd
    obtain ⟨ha, hnd'⟩ := hnd
    rcases List.mem_cons.mp hx with rfl | hxt
    · have hpa : (fun h : Hero => h.id == x.id) x = true := by simp
      exact List.find?_cons_of_pos t hpa
    · have hne : ¬((fun h : Hero => h.id == x.id) a = true) := by
        simp only [beq_iff_eq]
        intro heq
        exact ha (List.mem_map.mpr ⟨x, hxt, heq.symm⟩)
      rw [List.find?_cons_of_neg t hne]
      exact ih hnd' hxt

/-- Elimination form for a successful `update`: the code found the first
index carrying the id and spliced the patched record back in there. -/
theorem update_eq_ok (heroes : List Hero) (id : String) (dto : UpdateHeroDto)
    (r : Hero × List Hero) (hu : update heroes id dto = .ok r) :
    ∃ i x, findIndexO (fun h => h.id == id) heroes = some i
      ∧ heroes[i]? = some x ∧ x.id = id
      ∧ r.1 = applyPatch x dto
      ∧ r.2 = heroes.take i ++ [applyPatch x dto] ++ heroes.drop (i + 1) := by
  unfold update at hu
  split at hu
  · simp at hu
  · next i hfind =>
    split at hu
    · simp at hu
    · next x hx =>
      simp only [Except.ok.injEq] at hu
      obtain ⟨hlt, y, hy, hpy⟩ := findIndexO_eq_some _ _ _ hfind
      rw [hx] at hy
      cases hy
      exact ⟨i, x, hfind, hx, beq_iff_eq.mp hpy, by rw [← hu],
             by rw [← hu]⟩

/-- A successful `update` preserves the sequence of ids (only `name` and
`description` can occur in the patch). -/
theorem update_ok_ids (heroes : List Hero) (id : String)
    (dto : UpdateHeroDto) (r : Hero × List Hero)
    (hu : update heroes id dto = .ok r) :
    r.2.map Hero.id = heroes.map Hero.id := by
  obtain ⟨i, x, hfind, hx, _, _, hs⟩ := update_eq_ok heroes id dto r hu
  obtain ⟨hlt, hgetx⟩ := List.getElem?_eq_some.mp hx
  have hdecomp : heroes.take i ++ heroes.drop i = heroes :=
    List.take_append_drop i heroes
  have hdrop : heroes.drop i = x :: heroes.drop (i + 1) := by
    rw [List.drop_eq_getElem_cons hlt, hgetx]
  rw [hs]
  calc (heroes.take i ++ [applyPatch x dto] ++ heroes.drop (i + 1)).map Hero.id
      = (heroes.take i).map Hero.id
          ++ x.id :: (heroes.drop (i + 1)).map Hero.id := by
        simp [applyPatch]
    _ = (heroes.take i ++ heroes.drop i).map Hero.id := by
        rw [hdrop]; simp
    _ = heroes.map Hero.id := by rw [hdecomp]

/-! ## Claim theorems -/

/-- C4: `create` never fails (it is a total function); the returned hero
carries the request's `name` and `description`, an id assigned by the
store's generator (hence non-empty), and a `createdAt` equal to the
invocation time (hence at or after it); the new record is appended at the
end and every existing record is left unchanged. -/
theorem create_spec (heroes : List Hero) (dto : CreateHeroDto) (now : Int)
    (randSuffix : String) :
    (create heroes dto now randSuffix).1.name = dto.name
    ∧ (create heroes dto now randSuffix).1.description = dto.description
    ∧ (create heroes dto now randSuffix).1.id = generateId now randSuffix
    ∧ (create heroes dto now randSuffix).1.id ≠ ""
    ∧ now ≤ (create heroes dto now randSuffix).1.createdAt
    ∧ (create heroes dto now randSuffix).2
        = heroes ++ [(create heroes dto now randSuffix).1] := by
  refine ⟨rfl, rfl, rfl, ?_, le_refl _, rfl⟩
  intro hempty
  have hlen := congrArg String.length hempty
  simp only [create, generateId, String.length_append] at hlen
  have hone : ("-" : String).length = 1 := rfl
  have hzero : ("" : String).length = 0 := rfl
  omega

/-- C1: when the id is present (the code's `findIndex` succeeds at `i` on
record `x`), `update` succeeds with the patched record: present patch
fields overwrite, absent fields — always including `id` and `createdAt` —
are preserved; the patched record replaces position `i`, the length is
unchanged, and every other position is byte-for-byte unchanged. -/
theorem update_found_spec (heroes : List Hero) (id : String)
    (dto : UpdateHeroDto) (i : Nat) (x : Hero)
    (hfind : findIndexO (fun h => h.id == id) heroes = some i)
    (hx : heroes[i]? = some x) :
    update heroes id dto
      = .ok (applyPatch x dto,
             heroes.take i ++ [applyPatch x dto] ++ heroes.drop (i + 1))
    ∧ (applyPatch x dto).id = x.id
    ∧ (applyPatch x dto).createdAt = x.createdAt
    ∧ (dto.name = none → (applyPatch x dto).name = x.name)
    ∧ (∀ n, dto.name = some n → (applyPatch x dto).name = n)
    ∧ (dto.description = none →
        (applyPatch x dto).description = x.description)
    ∧ (∀ d, dto.description = some d →
        (applyPatch x dto).description = some d)
    ∧ (heroes.take i ++ [applyPatch x dto] ++ heroes.drop (i + 1)).length
        = heroes.length
    ∧ (heroes.take i ++ [applyPatch x dto] ++ heroes.drop (i + 1))[i]?
        = some (applyPatch x dto)
    ∧ (∀ j, j ≠ i →
        (heroes.take i ++ [applyPatch x dto] ++ heroes.drop (i + 1))[j]?
          = heroes[j]?) := by
  obtain ⟨hlt, hgetx⟩ := List.getElem?_eq_some.mp hx
  have hset : heroes.take i ++ [applyPatch x dto] ++ heroes.drop (i + 1)
      = heroes.set i (applyPatch x dto) := by
    rw [List.set_eq_take_cons_drop _ hlt]
    simp
  refine ⟨?_, rfl, rfl, ?_, ?_, ?_, ?_, ?_, ?_, ?_⟩
  · simp [update, hfind, hx]
  · intro hn; simp [applyPatch, hn]
  · intro n hn; simp [applyPatch, hn]
  · intro hd; simp [applyPatch, hd, Option.orElse]
  · intro d hd; simp [applyPatch, hd, Option.orElse]
  · rw [hset, List.length_set]
  · rw [hset, List.getElem?_set]
    simp [hlt]
  · intro j hj
    rw [hset, List.getElem?_set_ne (Ne.symm hj)]

/-- Witness for C1: updating hero `"1"` of the seed with a new name. -/
theorem update_found_spec_witness :
    findIndexO (fun h => h.id == "1") initialHeroes = some 0
    ∧ initialHeroes[0]?
        = some { id := "1", name := "Superman",
                 description := some "Man of Steel",
                 createdAt := 1704067200000 }
    ∧ update initialHeroes "1" { name := some "Clark Kent",
                                 description := none }
        = .ok (applyPatch
                 { id := "1", name := "Superman",
                   description := some "Man of Steel",
                   createdAt := 1704067200000 }
                 { name := some "Clark Kent", description := none },
               initialHeroes.take 0
                 ++ [applyPatch
                       { id := "1", name := "Superman",
                         description := some "Man of Steel",
                         createdAt := 1704067200000 }
                       { name := some "Clark Kent", description := none }]
                 ++ initialHeroes.drop 1) :=
  ⟨by decide, by decide,
   (update_found_spec initialHeroes "1"
      { name := some "Clark Kent", description := none } 0
      { id := "1", name := "Superman", description := some "Man of Steel",
        createdAt := 1704067200000 }
      (by decide) (by decide)).1⟩

/-- C2: `update` and `delete` succeed exactly when the id is present; on a
missing id both deliver the error `Hero with id <id> not found` — whose
text contains the substring `not found` and the offending id — and the
collection after the call is exactly the collection before it. -/
theorem notFound_spec (s : List Hero) (id : String) (dto : UpdateHeroDto) :
    ((update s id dto).isOk = s.any (fun h => h.id == id))
    ∧ ((delete s id).isOk = s.any (fun h => h.id == id))
    ∧ (s.any (fun h => h.id == id) = false →
        update s id dto = .error ("Hero with id " ++ id ++ " not found")
        ∧ delete s id = .error ("Hero with id " ++ id ++ " not found")
        ∧ strIncludes ("Hero with id " ++ id ++ " not found") "not found"
            = true
        ∧ strIncludes ("Hero with id " ++ id ++ " not found") id = true
        ∧ (applyCall s (.update id dto)).2 = s
        ∧ (applyCall s (.delete id)).2 = s) := by
  refine ⟨?_, ?_, ?_⟩
  · cases hany : s.any (fun h => h.id == id) with
    | false =>
      have hnone := (findIndexO_eq_none_iff (fun h => h.id == id) s).mpr hany
      simp [update, hnone, Except.isOk, Except.toBool]
    | true =>
      cases hfind : findIndexO (fun h => h.id == id) s with
      | none =>
        rw [(findIndexO_eq_none_iff _ _).mp hfind] at hany
        cases hany
      | some i =>
        obtain ⟨hlt, x, hx, _⟩ := findIndexO_eq_some _ _ _ hfind
        simp [update, hfind, hx, Except.isOk, Except.toBool]
  · cases hany : s.any (fun h => h.id == id) with
    | false => simp [delete, hany, Except.isOk, Except.toBool]
    | true => simp [delete, hany, Except.isOk, Except.toBool]
  · intro hany
    have hnone := (findIndexO_eq_none_iff (fun h => h.id == id) s).mpr hany
    have hupd : update s id dto
        = .error ("Hero with id " ++ id ++ " not found") := by
      simp [update, hnone]
    have hdel : delete s id
        = .error ("Hero with id " ++ id ++ " not found") := by
      simp [delete, hany]
    refine ⟨hupd, hdel, ?_, ?_, ?_, ?_⟩
    · rw [strIncludes, subCheck_iff]
      refine ⟨"Hero with id ".data ++ id.data ++ [' '], [], ?_⟩
      have hsp : (" not found" : String).data
          = ' ' :: ("not found" : String).data := rfl
      simp [String.data_append, hsp, List.append_assoc]
    · rw [strIncludes, subCheck_iff]
      refine ⟨"Hero with id ".data, " not found".data, ?_⟩
      simp [String.data_append]
    · simp [applyCall, hupd]
    · simp [applyCall, hdel]

/-- Witness for C2: the missing id `"nope"` on the seed collection. -/
theorem notFound_spec_witness :
    initialHeroes.any (fun h => h.id == "nope") = false
    ∧ (update initialHeroes "nope" { name := some "x", description := none }
         = .error ("Hero with id " ++ "nope" ++ " not found")
       ∧ delete initialHeroes "nope"
         = .error ("Hero with id " ++ "nope" ++ " not found")
       ∧ strIncludes ("Hero with id " ++ "nope" ++ " not found") "not found"
           = true
       ∧ strIncludes ("Hero with id " ++ "nope" ++ " not found") "nope"
           = true
       ∧ (applyCall initialHeroes
            (.update "nope" { name := some "x", description := none })).2
           = initialHeroes
       ∧ (applyCall initialHeroes (.delete "nope")).2 = initialHeroes) :=
  ⟨by decide,
   (notFound_spec initialHeroes "nope"
      { name := some "x", description := none }).2.2 (by decide)⟩

/-- C3: `searchByName` trims and lower-cases the term; an empty normalized
term behaves exactly like `getAll`, otherwise the result is, in insertion
order (a sublist of the collection), exactly the heroes whose lower-cased
name contains the normalized term as a substring; in particular
`searchByName("  MAN  ")` and `searchByName("man")` coincide on every
collection. -/
theorem searchByName_spec (s : List Hero) (term : String) :
    (strTrim (strToLower term) = "" → searchByName s term = getAll s)
    ∧ (strTrim (strToLower term) ≠ "" →
        searchByName s term
          = s.filter (fun h =>
              strIncludes (strToLower h.name) (strTrim (strToLower term))))
    ∧ (searchByName s term).Sublist s
    ∧ (∀ h, h ∈ searchByName s term ↔
        h ∈ s ∧ (strTrim (strToLower term) = ""
          ∨ ∃ pre post,
              pre ++ (strTrim (strToLower term)).data ++ post
                = (strToLower h.name).data))
    ∧ searchByName s "  MAN  " = searchByName s "man" := by
  refine ⟨?_, ?_, ?_, ?_, ?_⟩
  · intro hempty
    simp [searchByName, hempty]
  · intro hne
    simp [searchByName, hne]
  · by_cases hempty : strTrim (strToLower term) = ""
    · simp [searchByName, hempty, getAll]
    · simp only [searchByName, hempty, if_false]
      exact List.filter_sublist s
  · intro h
    by_cases hempty : strTrim (strToLower term) = ""
    · simp [searchByName, hempty, getAll]
    · simp only [searchByName, hempty, if_false, List.mem_filter,
        strIncludes, subCheck_iff, false_or]
  · have hnorm : strTrim (strToLower "  MAN  ") = strTrim (strToLower "man") :=
      by decide
    simp only [searchByName, hnorm]

/-- Witness for C3: the normalized form of `"  MAN  "` is non-empty and the
search is the corresponding name filter. -/
theorem searchByName_spec_witness :
    strTrim (strToLower "  MAN  ") ≠ ""
    ∧ searchByName initialHeroes "  MAN  "
        = initialHeroes.filter (fun h =>
            strIncludes (strToLower h.name) (strTrim (strToLower "  MAN  "))) :=
  ⟨by decide, (searchByName_spec initialHeroes "  MAN  ").2.1 (by decide)⟩

/-- C6: deleting a present id from a collection with duplicate-free ids
succeeds, keeps exactly the records with a different id in their original
relative order, and shrinks the collection by exactly one. -/
theorem delete_found_spec (s : List Hero) (id : String)
    (hmem : s.any (fun h => h.id == id) = true)
    (hnd : (s.map Hero.id).Nodup) :
    delete s id = .ok (s.filter (fun h => !(h.id == id)))
    ∧ (s.filter (fun h => !(h.id == id))).length + 1 = s.length
    ∧ (s.filter (fun h => !(h.id == id))).Sublist s
    ∧ (∀ h, h ∈ s.filter (fun h => !(h.id == id)) ↔ h ∈ s ∧ h.id ≠ id) := by
  refine ⟨by simp [delete, hmem], ?_, List.filter_sublist s, ?_⟩
  · have hcount := countP_id_eq_one s id hnd hmem
    have hsplit := countP_not_add (fun h => h.id == id) s
    have hlen := List.countP_eq_length_filter (fun h => !(h.id == id)) s
    omega
  · intro h
    simp [List.mem_filter]

/-- Witness for C6: deleting hero `"1"` from the seed. -/
theorem delete_found_spec_witness :
    initialHeroes.any (fun h => h.id == "1") = true
    ∧ (initialHeroes.map Hero.id).Nodup
    ∧ delete initialHeroes "1"
        = .ok (initialHeroes.filter (fun h => !(h.id == "1"))) :=
  ⟨by decide, by decide,
   (delete_found_spec initialHeroes "1" (by decide) (by decide)).1⟩

/-- C7: `getById` returns each member of a duplicate-free collection when
queried with that member's id, returns `none` for any absent id, and never
fails (its result type has no error channel). -/
theorem getById_spec (s : List Hero) :
    (∀ x, x ∈ s → (s.map Hero.id).Nodup → getById s x.id = some x)
    ∧ (∀ id, (∀ h, h ∈ s → h.id ≠ id) → getById s id = none) := by
  constructor
  · intro x hx hnd
    exact find?_id_eq_of_nodup s x hnd hx
  · intro id habsent
    rw [getById, List.find?_eq_none]
    intro x hx
    simp only [beq_iff_eq]
    exact habsent x hx

/-- Witness for C7: hero `"1"` is found in the seed; id `"ghost"` is not. -/
theorem getById_spec_witness :
    ({ id := "1", name := "Superman", description := some "Man of Steel",
       createdAt := 1704067200000 } : Hero) ∈ initialHeroes
    ∧ (initialHeroes.map Hero.id).Nodup
    ∧ getById initialHeroes "1"
        = some { id := "1", name := "Superman",
                 description := some "Man of Steel",
                 createdAt := 1704067200000 }
    ∧ getById initialHeroes "ghost" = none :=
  ⟨by decide, by decide,
   (getById_spec initialHeroes).1
     { id := "1", name := "Superman", description := some "Man of Steel",
       createdAt := 1704067200000 } (by decide) (by decide),
   (getById_spec initialHeroes).2 "ghost" (by decide)⟩

/-- A successful `delete` is the filter kept by the code. -/
theorem delete_eq_ok (s : List Hero) (id : String) (s' : List Hero)
    (hd : delete s id = .ok s') :
    s' = s.filter (fun h => !(h.id == id)) := by
  by_cases hany : s.any (fun h => h.id == id) = true
  · simp [delete, hany] at hd
    exact hd.symm
  · simp only [Bool.not_eq_true] at hany
    simp [delete, hany] at hd

/-- Invariant propagation for C5: as long as the environment feeds `create`
ids that are fresh for the current collection, duplicate-free ids are
preserved by every call. -/
theorem nodup_ids_of_fresh (calls : List ApiCall) :
    ∀ s : List Hero, (s.map Hero.id).Nodup → FreshIds s calls = true →
      ((calls.foldl applyOp s).map Hero.id).Nodup := by
  induction calls with
  | nil =>
    intro s hnd _
    simpa using hnd
  | cons c cs ih =>
    intro s hnd hf
    rw [List.foldl_cons]
    cases c with
    | getAll => exact ih s hnd hf
    | getById id => exact ih s hnd hf
    | searchByName term => exact ih s hnd hf
    | create dto now randSuffix =>
      have hf' : (!((s.map Hero.id).contains (generateId now randSuffix))
          && FreshIds (applyOp s (.create dto now randSuffix)) cs)
          = true := hf
      rw [Bool.and_eq_true] at hf'
      obtain ⟨hc, hcs⟩ := hf'
      refine ih (applyOp s (.create dto now randSuffix)) ?_ hcs
      have hfresh : generateId now randSuffix ∉ s.map Hero.id := by
        intro hmem
        have helem : (s.map Hero.id).contains (generateId now randSuffix)
            = true := by
          simpa [List.contains] using List.elem_iff.mpr hmem
        rw [helem] at hc
        simp at hc
      show (((s ++ [_]).map Hero.id)).Nodup
      rw [List.map_append, List.nodup_append]
      refine ⟨hnd, by simp, ?_⟩
      intro b hb hbmem
      simp only [List.map_cons, List.map_nil, List.mem_singleton] at hbmem
      subst hbmem
      exact hfresh hb
    | update id dto =>
      have hf' : FreshIds (applyOp s (.update id dto)) cs = true := hf
      refine ih (applyOp s (.update id dto)) ?_ hf'
      cases hu : update s id dto with
      | ok r =>
        have hids := update_ok_ids s id dto r hu
        simp only [applyOp, applyCall, hu]
        rw [hids]
        exact hnd
      | error e =>
        simp only [applyOp, applyCall, hu]
        exact hnd
    | delete id =>
      have hf' : FreshIds (applyOp s (.delete id)) cs = true := hf
      refine ih (applyOp s (.delete id)) ?_ hf'
      cases hd : delete s id with
      | ok s' =>
        have hfil := delete_eq_ok s id s' hd
        simp only [applyOp, applyCall, hd]
        rw [hfil]
        exact ((List.filter_sublist s).map Hero.id).nodup hnd
      | error e =>
        simp only [applyOp, applyCall, hd]
        exact hnd
    | reset =>
      have hf' : FreshIds (applyOp s .reset) cs = true := hf
      refine ih (applyOp s .reset) ?_ hf'
      have hids : (applyOp s .reset).map Hero.id = ["1", "2", "3"] := rfl
      rw [hids]
      decide

/-- C5, counterexample: the claim quantifies over every reachable state,
but `generateId` performs no collision check, so two `create` calls whose
environment (`Date.now()`, `Math.random()` suffix) happens to repeat put
two heroes with the same id into the collection. -/
theorem ids_unique_cex :
    ¬ ((run [ApiCall.create { name := "A", description := none } 5 "x",
             ApiCall.create { name := "A", description := none } 5 "x"]).map
        Hero.id).Nodup := by decide

/-- C5, amended: in every state reachable by a run in which each `create`
receives a generated id that is not already present in the collection, the
collection contains at most one hero per id. -/
theorem ids_unique_amended (calls : List ApiCall)
    (hf : FreshIds initialHeroes calls = true) :
    ((run calls).map Hero.id).Nodup :=
  nodup_ids_of_fresh calls initialHeroes (by decide) hf

/-- Witness for the amended C5: one `create` with a fresh id. -/
theorem ids_unique_amended_witness :
    FreshIds initialHeroes
        [ApiCall.create { name := "A", description := none } 5 "x"] = true
    ∧ ((run [ApiCall.create { name := "A", description := none } 5 "x"]).map
        Hero.id).Nodup :=
  ⟨by decide, ids_unique_amended _ (by decide)⟩

/-- Invariant propagation for C8: every call whose dto names are non-empty
keeps every stored name non-empty. -/
theorem nonempty_names_of_ok (calls : List ApiCall) :
    ∀ s : List Hero, (∀ h, h ∈ s → h.name ≠ "") → NamesOk calls = true →
      ∀ h, h ∈ calls.foldl applyOp s → h.name ≠ "" := by
  induction calls with
  | nil =>
    intro s hinv _
    simpa using hinv
  | cons c cs ih =>
    intro s hinv hok
    rw [List.foldl_cons]
    cases c with
    | getAll => exact ih s hinv hok
    | getById id => exact ih s hinv hok
    | searchByName term => exact ih s hinv hok
    | create dto now randSuffix =>
      have hok' : (!(dto.name == "") && NamesOk cs) = true := hok
      rw [Bool.and_eq_true] at hok'
      obtain ⟨hc, hcs⟩ := hok'
      refine ih (applyOp s (.create dto now randSuffix)) ?_ hcs
      have hname : dto.name ≠ "" := by
        simpa using hc
      intro h hmem
      rcases List.mem_append.mp hmem with hs | hnew
      · exact hinv h hs
      · simp only [List.mem_singleton] at hnew
        subst hnew
        exact hname
    | update id dto =>
      have hok' : ((match dto.name with
                    | some n => !(n == "")
                    | none => true) && NamesOk cs) = true := hok
      rw [Bool.and_eq_true] at hok'
      obtain ⟨hc, hcs⟩ := hok'
      refine ih (applyOp s (.update id dto)) ?_ hcs
      cases hu : update s id dto with
      | ok r =>
        obtain ⟨i, x, hfind, hx, _, _, hstate⟩ := update_eq_ok s id dto r hu
        have hxmem : x ∈ s := by
          obtain ⟨hlt, hget⟩ := List.getElem?_eq_some.mp hx
          subst hget
          exact List.getElem_mem hlt
        have hpatch : (applyPatch x dto).name ≠ "" := by
          cases hdn : dto.name with
          | none => simpa [applyPatch, hdn] using hinv x hxmem
          | some n =>
            rw [hdn] at hc
            simp only [Bool.not_eq_true', beq_eq_false_iff_ne, ne_eq] at hc
            simpa [applyPatch, hdn] using hc
        intro h hmem
        simp only [applyOp, applyCall, hu] at hmem
        rw [hstate] at hmem
        rcases List.mem_append.mp hmem with hmem1 | hdropped
        · rcases List.mem_append.mp hmem1 with htaken | hpat
          · exact hinv h ((List.take_sublist i s).subset htaken)
          · simp only [List.mem_singleton] at hpat
            subst hpat
            exact hpatch
        · exact hinv h ((List.drop_sublist (i + 1) s).subset hdropped)
      | error e =>
        intro h hmem
        simp only [applyOp, applyCall, hu] at hmem
        exact hinv h hmem
    | delete id =>
      have hok' : NamesOk cs = true := hok
      refine ih (applyOp s (.delete id)) ?_ hok'
      cases hd : delete s id with
      | ok s' =>
        have hfil := delete_eq_ok s id s' hd
        intro h hmem
        simp only [applyOp, applyCall, hd] at hmem
        rw [hfil] at hmem
        exact hinv h (List.mem_filter.mp hmem).1
      | error e =>
        intro h hmem
        simp only [applyOp, applyCall, hd] at hmem
        exact hinv h hmem
    | reset =>
      have hok' : NamesOk cs = true := hok
      refine ih (applyOp s .reset) ?_ hok'
      intro h hmem
      have hmem2 : h ∈ initialHeroes := hmem
      simp only [initialHeroes, List.mem_cons, List.not_mem_nil,
        or_false] at hmem2
      rcases hmem2 with rfl | rfl | rfl <;> decide

/-- C8, counterexample: the TS interface `CreateHeroDto` admits
`{ name: "" }` and `create` validates nothing, so a reachable state
contains a hero with an empty name. -/
theorem names_nonempty_cex :
    ¬ (∀ h,
        h ∈ run [ApiCall.create { name := "", description := none } 5 "x"]
        → h.name ≠ "") := by decide

/-- C8, amended: provided every `create` request carries a non-empty name
and every `update` patch that carries a name carries a non-empty one, every
hero in every reachable state has a non-empty name. -/
theorem names_nonempty_amended (calls : List ApiCall)
    (hok : NamesOk calls = true) :
    ∀ h, h ∈ run calls → h.name ≠ "" :=
  nonempty_names_of_ok calls initialHeroes (by decide) hok

/-- Witness for the amended C8: one well-formed `create`; the seed hero is
still named `"Superman"`. -/
theorem names_nonempty_amended_witness :
    NamesOk [ApiCall.create { name := "Wonder Woman",
                              description := some "Amazon Princess" } 5 "x"]
      = true
    ∧ Hero.name { id := "1", name := "Superman",
                  description := some "Man of Steel",
                  createdAt := 1704067200000 } ≠ "" :=
  ⟨by decide,
   names_nonempty_amended
     [ApiCall.create { name := "Wonder Woman",
                       description := some "Amazon Princess" } 5 "x"]
     (by decide)
     { id := "1", name := "Superman", description := some "Man of Steel",
       createdAt := 1704067200000 } (by decide)⟩

/-- C9: after any sequence of calls, one `resetToInitialState` makes the
collection exactly the fixed three-record seed used at construction, with
ids `"1"`, `"2"`, `"3"` and the fixed names, descriptions and timestamps in
that order. -/
theorem reset_spec (calls : List ApiCall) (s : List Hero) :
    run (calls ++ [ApiCall.reset]) = initialHeroes
    ∧ resetToInitialState s = initialHeroes
    ∧ initialHeroes.map Hero.id = ["1", "2", "3"]
    ∧ initialHeroes.map Hero.name = ["Superman", "Spiderman", "Batman"]
    ∧ initialHeroes.map Hero.description
        = [some "Man of Steel",
           some "Your friendly neighborhood Spider-Man",
           some "The Dark Knight"]
    ∧ initialHeroes.map Hero.createdAt
        = [1704067200000, 1704153600000, 1704240000000] := by
  refine ⟨?_, rfl, rfl, rfl, rfl, rfl⟩
  rw [run, List.foldl_append]
  rfl

/-- C10: a call that is not a mutation (`getAll`, `getById`,
`searchByName`) leaves the collection exactly as it was; only `create`,
`update`, `delete` and `reset` write to the store. -/
theorem queries_frame (s : List Hero) (c : ApiCall)
    (hq : isMutation c = false) :
    (applyCall s c).2 = s := by
  cases c with
  | getAll => rfl
  | getById id => rfl
  | searchByName term => rfl
  | create dto now randSuffix => simp [isMutation] at hq
  | update id dto => simp [isMutation] at hq
  | delete id => simp [isMutation] at hq
  | reset => simp [isMutation] at hq

/-- Witness for C10: `getAll` on the seed. -/
theorem queries_frame_witness :
    isMutation ApiCall.getAll = false
    ∧ (applyCall initialHeroes ApiCall.getAll).2 = initialHeroes :=
  ⟨rfl, queries_frame initialHeroes ApiCall.getAll rfl⟩

end HeroStore
